import Mathlib

/-!
# Verification of the VeDirectFrameHandler byte-stream decoder

Shallow embedding of `VeDirectFrameHandler` (the v0.5 implementation:
header and `framehandler.cpp` of the repository) in Lean 4, together with
proofs and refutations of the specification claims.

Modelling conventions:
* bytes are `Nat` in `[0,255]`; the `uint8_t` checksum accumulator is kept
  reduced mod 256 at each addition (C unsigned overflow is mod-256 arithmetic);
* the fixed C arrays `mName[9]` / `mValue[33]` are modelled by the list of
  bytes written since the last cursor reset (the cursor position is the list
  length); the zero terminator written on `\t` / `\n` makes the C string equal
  to the written bytes up to the first embedded NUL, which `cstr` computes;
* `tempData[frameLen]` is modelled by the list of its written entries
  (`frameIndex` is the list length); `veData[buffLen]` is a 40-entry list and
  `veHexBuffer[hexBuffLen]` a 100-entry list, updated with `List.set` and read
  with `List.getD` exactly at the indices the C code uses;
* `strcpy` of a C string is replacement, `strcmp == 0` is equality of the
  NUL-free byte lists;
* a registered hex callback (an opaque C function pointer plus context
  pointer) is an opaque pair of tokens; a synchronous callback invocation is
  recorded as an event appended to an event trace, carrying the callback
  token, its context token, the buffer contents and the length passed;
* the `char` type of the hex buffer is signed (as on the build platform),
  which `charVal` reflects; `int` arithmetic of the hex checksum is `Int`
  arithmetic, reduced mod 256 at the final `uint8_t` comparison.
-/

/-- The states of the decoder state machine (`enum States`). -/
inductive MState where
  | idle
  | recordBegin
  | recordName
  | recordValue
  | chksum
  | recordHex
deriving DecidableEq

/-- A registered hex callback: opaque function token and context token
(`struct VeHexCB`). -/
structure VeCB where
  fn : Nat
  data : Nat
deriving DecidableEq

/-- One synchronous callback invocation
`(*(veHexCBList[i].cb))(veHexBuffer, veHEnd, veHexCBList[i].data)`. -/
structure HexEvent where
  fn : Nat
  data : Nat
  buffer : List Nat
  len : Nat
deriving DecidableEq

/-- The whole `VeDirectFrameHandler` object state. -/
structure Machine where
  mState : MState
  mChecksum : Nat
  mName : List Nat
  mValue : List Nat
  tempData : List (List Nat × List Nat)
  veData : List (List Nat × List Nat)
  veEnd : Nat
  veHexBuffer : List Nat
  veHEnd : Nat
  newDataAvailable : Bool
  ignoreCheckSum : Bool
  vePushedState : MState
  veHexCBList : List VeCB
  events : List HexEvent
deriving DecidableEq

/-- `toupper` on a byte: lower-case ASCII letters map to upper case, all other
byte values are unchanged. -/
def toUpperByte (b : Nat) : Nat := if 97 ≤ b ∧ b ≤ 122 then b - 32 else b

/-- The C string held in a buffer whose written bytes are `l`: the bytes up to
the first embedded NUL (the zero terminator is written at the cursor). -/
def cstr (l : List Nat) : List Nat := l.takeWhile (fun c => c ≠ 0)

/-- `checksumTagName = "CHECKSUM"` as bytes. -/
def checksumTagName : List Nat := [67, 72, 69, 67, 75, 83, 85, 77]

/-- `textRxEvent`: append the parsed (name, value) C strings to the pending
frame buffer if `frameIndex < frameLen` (22). -/
def textRxEvent (st : Machine) : Machine :=
  if st.tempData.length < 22 then
    { st with tempData := st.tempData ++ [(cstr st.mName, cstr st.mValue)] }
  else st

/-- One iteration of the `frameEndEvent` outer loop for a single pending
field: scan `veData[0..veEnd]` (inclusive, as the C loop `j <= veEnd`) for an
entry with the same name; overwrite its value in place, or else append at
`veEnd` and increment with the `buffLen` (40) cap. -/
def mergeStep (p : List (List Nat × List Nat) × Nat) (f : List Nat × List Nat) :
    List (List Nat × List Nat) × Nat :=
  match (List.range (p.2 + 1)).find? (fun j => decide ((p.1.getD j ([], [])).1 = f.1)) with
  | some j => (p.1.set j ((p.1.getD j ([], [])).1, f.2), p.2)
  | none =>
      let vd := p.1.set p.2 f
      let e := p.2 + 1
      (vd, if 40 ≤ e then 39 else e)

/-- `frameEndEvent`: on a valid frame set `newDataAvailable` and merge every
pending field into the published table; in all cases reset the pending
frame. -/
def frameEndEvent (st : Machine) (valid : Bool) : Machine :=
  if valid then
    let p := st.tempData.foldl mergeStep (st.veData, st.veEnd)
    { st with newDataAvailable := true, veData := p.1, veEnd := p.2, tempData := [] }
  else { st with tempData := [] }

/-- `ascii2hex(v) = v - 48 - (v >= 'A' ? 7 : 0)` on the signed-char value. -/
def ascii2hex (c : Int) : Int := c - 48 - (if 65 ≤ c then 7 else 0)

/-- The signed `char` value of a stored byte. -/
def charVal (b : Nat) : Int := if b ≤ 127 then (b : Int) else (b : Int) - 256

/-- `hex2byte(b) = ascii2hex(b[0])*16 + ascii2hex(b[1])`. -/
def hex2byte (buf : List Nat) (i : Nat) : Int :=
  ascii2hex (charVal (buf.getD i 0)) * 16 + ascii2hex (charVal (buf.getD (i + 1) 0))

/-- The index sequence of the loop `for (int i = 2; i < size; i += 2)`:
the even indices `2, 4, ...` below `size`, in increasing order. -/
def hexPositions (size : Nat) : List Nat :=
  (List.range size).filter (fun i => decide (2 ≤ i ∧ i % 2 = 0))

/-- `hexIsValid`: seed `0x55 - ascii2hex(buffer[1])`, subtract `hex2byte` of
each position of the loop, and test the `uint8_t` result against 0. -/
def hexIsValid (buf : List Nat) (size : Nat) : Bool :=
  ((hexPositions size).foldl (fun cs i => cs - hex2byte buf i)
      (85 - ascii2hex (charVal (buf.getD 1 0)))) % 256 == 0

/-- `hexRxEvent`: on `\n` validate the hex frame, fire all registered
callbacks in registration order when valid, and return the pushed state;
otherwise append the byte to the hex buffer, aborting to `IDLE` with an empty
buffer on overflow at `hexBuffLen` (100). -/
def hexRxEvent (st : Machine) (b : Nat) : Machine :=
  if b = 10 then
    let st' :=
      if hexIsValid st.veHexBuffer st.veHEnd then
        { st with events := st.events ++
            st.veHexCBList.map (fun cb => ⟨cb.fn, cb.data, st.veHexBuffer, st.veHEnd⟩) }
      else st
    { st' with mState := st.vePushedState }
  else
    if 100 ≤ st.veHEnd + 1 then
      { st with
          veHexBuffer := st.veHexBuffer.set st.veHEnd b
          veHEnd := 0
          mState := MState.idle }
    else
      { st with
          veHexBuffer := st.veHexBuffer.set st.veHEnd b
          veHEnd := st.veHEnd + 1
          mState := MState.recordHex }

/-- The hex-interrupt rule at the top of `rxData`: a ':' outside the
`CHECKSUM` state pushes the current state and diverts to `RECORD_HEX` with an
empty hex buffer. -/
def rxDivert (st : Machine) (b : Nat) : Machine :=
  if b = 58 ∧ st.mState ≠ MState.chksum then
    { st with vePushedState := st.mState, mState := MState.recordHex, veHEnd := 0 }
  else st

/-- The checksum accumulation in `rxData`: every byte handled outside
`RECORD_HEX` is added to the running `uint8_t` checksum. -/
def rxChk (st : Machine) (b : Nat) : Machine :=
  if st.mState ≠ MState.recordHex then
    { st with mChecksum := (st.mChecksum + b) % 256 }
  else st

/-- The `switch (mState)` body of `rxData`.

In `RECORD_NAME` the guard `mTextPointer < mName + sizeof(mName)` before the
zero-termination is always true (at most 8 bytes are ever written before the
cursor), so the tab branch always terminates and inspects the name; in
`RECORD_VALUE` the guard `mTextPointer < mValue + sizeof(mValue)` before
`textRxEvent` is likewise always true. -/
def rxSwitch (st : Machine) (b : Nat) : Machine :=
  match st.mState with
  | MState.idle => if b = 10 then { st with mState := MState.recordBegin } else st
  | MState.recordBegin => { st with mName := [b], mState := MState.recordName }
  | MState.recordName =>
      if b = 9 then
        if cstr st.mName = checksumTagName then { st with mState := MState.chksum }
        else { st with mValue := [], mState := MState.recordValue }
      else
        if st.mName.length < 8 then { st with mName := st.mName ++ [toUpperByte b] }
        else st
  | MState.recordValue =>
      if b = 10 then { (textRxEvent st) with mState := MState.recordBegin }
      else if b = 13 then st
      else
        if st.mValue.length < 32 then { st with mValue := st.mValue ++ [b] }
        else st
  | MState.chksum =>
      { (frameEndEvent { st with mState := MState.idle }
          (st.ignoreCheckSum || (st.mChecksum == 0))) with mChecksum := 0 }
  | MState.recordHex => hexRxEvent st b

/-- `rxData`: the single public ingestion point, one call per received byte. -/
def rxData (st : Machine) (b : Nat) : Machine := rxSwitch (rxChk (rxDivert st b) b) b

/-- Feed a byte sequence one byte at a time. -/
def run (st : Machine) (bs : List Nat) : Machine := bs.foldl rxData st

/-- `isDataAvailable`. -/
def isDataAvailable (st : Machine) : Bool := st.newDataAvailable

/-- A freshly constructed handler: zero-initialized public buffers, `IDLE`
state, checksum enforcement enabled. -/
def veInit : Machine where
  mState := MState.idle
  mChecksum := 0
  mName := []
  mValue := []
  tempData := []
  veData := List.replicate 40 ([], [])
  veEnd := 0
  veHexBuffer := List.replicate 100 0
  veHEnd := 0
  newDataAvailable := false
  ignoreCheckSum := false
  vePushedState := MState.idle
  veHexCBList := []
  events := []

/-- `addHexCallback`: append a (function, context) registration; the
doubling reallocation preserves all existing entries and their order, so the
registry is a list with append. -/
def addHexCallback (st : Machine) (fn data : Nat) : Machine :=
  { st with veHexCBList := st.veHexCBList ++ [⟨fn, data⟩] }

/-! ## Frames as abstract data, per the specification's data model -/

/-- A name byte of a well-formed field: printable (not tab, newline, carriage
return, NUL), not the hex marker ':', already upper-case-normalized (the data
model's names are case-normalized), and a byte. -/
def goodNameByte (c : Nat) : Prop :=
  c ≠ 9 ∧ c ≠ 10 ∧ c ≠ 13 ∧ c ≠ 58 ∧ c ≠ 0 ∧ toUpperByte c = c ∧ c ≤ 255

/-- A value byte of a well-formed field: not newline, carriage return, NUL or
the hex marker, and a byte. -/
def goodValueByte (c : Nat) : Prop := c ≠ 10 ∧ c ≠ 13 ∧ c ≠ 58 ∧ c ≠ 0 ∧ c ≤ 255

/-- A well-formed field: a nonempty name of at most 8 name bytes that is not
the reserved CHECKSUM literal, and a value of at most 32 value bytes. -/
def WellFormedField (f : List Nat × List Nat) : Prop :=
  1 ≤ f.1.length ∧ f.1.length ≤ 8 ∧ f.2.length ≤ 32 ∧
    (∀ c ∈ f.1, goodNameByte c) ∧ (∀ c ∈ f.2, goodValueByte c) ∧ f.1 ≠ checksumTagName

/-- At most 22 well-formed fields. -/
def WellFormedFields (fs : List (List Nat × List Nat)) : Prop :=
  fs.length ≤ 22 ∧ ∀ f ∈ fs, WellFormedField f

/-- A well-formed TEXT frame body: well-formed fields with pairwise-distinct
names (names are unique in the data model). -/
def WellFormedFrame (fs : List (List Nat × List Nat)) : Prop :=
  WellFormedFields fs ∧ (fs.map Prod.fst).Nodup

/-- Wire serialization of one field: name, tab, value, newline. -/
def serField (f : List Nat × List Nat) : List Nat := f.1 ++ [9] ++ f.2 ++ [10]

/-- Wire serialization of the frame's fields. -/
def serFields (fs : List (List Nat × List Nat)) : List Nat := (fs.map serField).flatten

/-- The CHECKSUM record tag as sent on the wire: "Checksum". -/
def checksumTagSent : List Nat := [67, 104, 101, 99, 107, 115, 117, 109]

/-- All bytes of a frame that precede the CHECKSUM record's terminating
newline: the leading newline, the serialized fields, the CHECKSUM tag, its
tab, and the checksum byte `x`. -/
def frameBytes (fs : List (List Nat × List Nat)) (x : Nat) : List Nat :=
  [10] ++ serFields fs ++ checksumTagSent ++ [9, x]

/-- A full frame on the wire, including the terminating newline after the
checksum byte. -/
def serFrame (fs : List (List Nat × List Nat)) (x : Nat) : List Nat := frameBytes fs x ++ [10]

/-! ## The claimed hex checksum formula -/

/-- The numeric value of an ASCII hex digit ('0'-'9', 'A'-'F'). -/
def hexDigitVal (c : Nat) : Int := if c ≤ 57 then (c : Int) - 48 else (c : Int) - 55

/-- An ASCII hex digit byte. -/
def IsHexDigit (c : Nat) : Prop := (48 ≤ c ∧ c ≤ 57) ∨ (65 ≤ c ∧ c ≤ 70)

/-- The claimed validity formula for a hex frame: 0x55 minus the hex value of
byte 1, minus the value of each subsequent ASCII-hex pair
`(b[2i], b[2i+1])`, vanishes mod 256. -/
def specHexValid (buf : List Nat) (size : Nat) : Bool :=
  ((85 - hexDigitVal (buf.getD 1 0) -
      ((List.range (size / 2 - 1)).map (fun k =>
          16 * hexDigitVal (buf.getD (2 * k + 2) 0) +
            hexDigitVal (buf.getD (2 * k + 3) 0))).sum) % 256) == 0

/-! ## Invariants -/

/-- The name stored at slot `j` of a published table. -/
def nameAt (vd : List (List Nat × List Nat)) (j : Nat) : List Nat := (vd.getD j ([], [])).1

/-- Invariant of the published table and its size counter: 40 slots, `veEnd`
capped at 39, pairwise-distinct nonempty names below `veEnd`, and (while the
table is not full) untouched slots at and above `veEnd`. -/
structure TableInvP (vd : List (List Nat × List Nat)) (ve : Nat) : Prop where
  len40 : vd.length = 40
  ve_le : ve ≤ 39
  distinct : ∀ i j, i < j → j < ve → nameAt vd i ≠ nameAt vd j
  nonemptyNames : ∀ j, j < ve → nameAt vd j ≠ []
  fresh : ve < 39 → ∀ j, ve ≤ j → nameAt vd j = []

/-- Cursor and buffer bounds of the decoder. -/
def BoundsInv (st : Machine) : Prop :=
  st.mName.length ≤ 8 ∧ st.mValue.length ≤ 32 ∧ st.tempData.length ≤ 22 ∧
    st.veHEnd ≤ 99 ∧ st.veHexBuffer.length = 100 ∧ st.mChecksum ≤ 255

/-- The reachable-state invariant. -/
def MachineInv (st : Machine) : Prop := BoundsInv st ∧ TableInvP st.veData st.veEnd

/-! ## List helpers -/

theorem cstr_eq_self {l : List Nat} (h : ∀ c ∈ l, c ≠ 0) : cstr l = l := by
  rw [cstr, List.takeWhile_eq_self_iff]
  intro x hx
  simpa using h x hx

theorem getD_set_self {α : Type} {l : List α} {i : Nat} {a d : α} (h : i < l.length) :
    (l.set i a).getD i d = a := by
  simp [List.getD, List.getElem?_set_self, h]

theorem getD_set_ne {α : Type} {l : List α} {i j : Nat} {a d : α} (h : i ≠ j) :
    (l.set i a).getD j d = l.getD j d := by
  simp [List.getD, List.getElem?_set_ne h]

theorem set_append_middle {α : Type} (l r : List α) (a d : α) :
    (l ++ d :: r).set l.length a = l ++ a :: r := by
  induction l with
  | nil => simp
  | cons x xs ih => simp [ih]

theorem take_set_of_le {α : Type} (l : List α) (i k : Nat) (a : α) (h : k ≤ i) :
    (l.set i a).take k = l.take k := by
  induction l generalizing i k with
  | nil => simp
  | cons x xs ih =>
      cases i with
      | zero => cases k with
        | zero => simp
        | succ k => omega
      | succ i =>
          cases k with
          | zero => simp
          | succ k => simpa [List.set] using ih i k (by omega)

theorem getD_replicate {α : Type} {n i : Nat} {d : α} :
    (List.replicate n d).getD i d = d := by
  simp [List.getD]

theorem find_range_eq_none {n : Nat} {p : Nat → Bool}
    (h : ∀ k, k < n → p k = false) : (List.range n).find? p = none := by
  rw [List.find?_eq_none]
  intro x hx
  simp [h x (List.mem_range.mp hx)]

theorem find_range_eq_some {n : Nat} {p : Nat → Bool} {j : Nat}
    (hj : j < n) (hp : p j = true) (hmin : ∀ k, k < j → p k = false) :
    (List.range n).find? p = some j := by
  induction n with
  | zero => omega
  | succ n ih =>
      rw [List.range_succ, List.find?_append]
      rcases Nat.lt_or_ge j n with h | h
      · rw [ih h]
        rfl
      · have hjn : j = n := by omega
        have : (List.range n).find? p = none := by
          apply find_range_eq_none
          intro k hk
          exact hmin k (by omega)
        rw [this]
        subst hjn
        simp [hp]

/-! ## Step lemmas: the effect of one byte in each state -/

theorem rxData_idle_nl {st : Machine} (h : st.mState = MState.idle) :
    rxData st 10 =
      { st with mChecksum := (st.mChecksum + 10) % 256, mState := MState.recordBegin } := by
  simp [rxData, rxDivert, rxChk, rxSwitch, h]

theorem rxData_idle_other {st : Machine} {b : Nat} (h : st.mState = MState.idle)
    (hb : b ≠ 10) (hb' : b ≠ 58) :
    rxData st b = { st with mChecksum := (st.mChecksum + b) % 256 } := by
  simp [rxData, rxDivert, rxChk, rxSwitch, h, hb, hb']

theorem rxData_begin {st : Machine} {b : Nat} (h : st.mState = MState.recordBegin)
    (hb : b ≠ 58) :
    rxData st b =
      { st with
          mChecksum := (st.mChecksum + b) % 256
          mName := [b]
          mState := MState.recordName } := by
  simp [rxData, rxDivert, rxChk, rxSwitch, h, hb]

theorem rxData_name_char {st : Machine} {b : Nat} (h : st.mState = MState.recordName)
    (hb : b ≠ 9) (hb' : b ≠ 58) (hlen : st.mName.length < 8) :
    rxData st b =
      { st with
          mChecksum := (st.mChecksum + b) % 256
          mName := st.mName ++ [toUpperByte b] } := by
  simp [rxData, rxDivert, rxChk, rxSwitch, h, hb, hb', hlen]

theorem rxData_name_char_full {st : Machine} {b : Nat} (h : st.mState = MState.recordName)
    (hb : b ≠ 9) (hb' : b ≠ 58) (hlen : ¬ st.mName.length < 8) :
    rxData st b = { st with mChecksum := (st.mChecksum + b) % 256 } := by
  simp [rxData, rxDivert, rxChk, rxSwitch, h, hb, hb', hlen]

theorem rxData_name_tab_match {st : Machine} (h : st.mState = MState.recordName)
    (hname : cstr st.mName = checksumTagName) :
    rxData st 9 =
      { st with mChecksum := (st.mChecksum + 9) % 256, mState := MState.chksum } := by
  simp [rxData, rxDivert, rxChk, rxSwitch, h, hname]

theorem rxData_name_tab_nomatch {st : Machine} (h : st.mState = MState.recordName)
    (hname : cstr st.mName ≠ checksumTagName) :
    rxData st 9 =
      { st with
          mChecksum := (st.mChecksum + 9) % 256
          mValue := []
          mState := MState.recordValue } := by
  simp [rxData, rxDivert, rxChk, rxSwitch, h, hname]

theorem rxData_value_nl {st : Machine} (h : st.mState = MState.recordValue) :
    rxData st 10 =
      { st with
          mChecksum := (st.mChecksum + 10) % 256
          mState := MState.recordBegin
          tempData :=
            if st.tempData.length < 22 then
              st.tempData ++ [(cstr st.mName, cstr st.mValue)]
            else st.tempData } := by
  by_cases hlen : st.tempData.length < 22 <;>
    simp [rxData, rxDivert, rxChk, rxSwitch, textRxEvent, h, hlen]

theorem rxData_value_cr {st : Machine} (h : st.mState = MState.recordValue) :
    rxData st 13 = { st with mChecksum := (st.mChecksum + 13) % 256 } := by
  simp [rxData, rxDivert, rxChk, rxSwitch, h]

theorem rxData_value_char {st : Machine} {b : Nat} (h : st.mState = MState.recordValue)
    (hb : b ≠ 10) (hb' : b ≠ 13) (hb'' : b ≠ 58) (hlen : st.mValue.length < 32) :
    rxData st b =
      { st with
          mChecksum := (st.mChecksum + b) % 256
          mValue := st.mValue ++ [b] } := by
  simp [rxData, rxDivert, rxChk, rxSwitch, h, hb, hb', hb'', hlen]

theorem rxData_value_char_full {st : Machine} {b : Nat} (h : st.mState = MState.recordValue)
    (hb : b ≠ 10) (hb' : b ≠ 13) (hb'' : b ≠ 58) (hlen : ¬ st.mValue.length < 32) :
    rxData st b = { st with mChecksum := (st.mChecksum + b) % 256 } := by
  simp [rxData, rxDivert, rxChk, rxSwitch, h, hb, hb', hb'', hlen]

theorem rxData_chksum {st : Machine} {b : Nat} (h : st.mState = MState.chksum) :
    rxData st b =
      { frameEndEvent
          { st with mState := MState.idle, mChecksum := (st.mChecksum + b) % 256 }
          (st.ignoreCheckSum || ((st.mChecksum + b) % 256 == 0)) with mChecksum := 0 } := by
  by_cases hb : b = 58 <;>
    simp [rxData, rxDivert, rxChk, rxSwitch, h, hb, frameEndEvent]

theorem rxData_divert {st : Machine} (h : st.mState ≠ MState.chksum) :
    rxData st 58 =
      hexRxEvent
        { st with vePushedState := st.mState, mState := MState.recordHex, veHEnd := 0 } 58 := by
  simp [rxData, rxDivert, rxChk, rxSwitch, h]

theorem rxData_hex {st : Machine} {b : Nat} (h : st.mState = MState.recordHex)
    (hb : b ≠ 58) :
    rxData st b = hexRxEvent st b := by
  simp [rxData, rxDivert, rxChk, rxSwitch, h, hb]

theorem run_append (st : Machine) (l r : List Nat) :
    run st (l ++ r) = run (run st l) r := by
  simp [run, List.foldl_append]

theorem run_cons (st : Machine) (b : Nat) (l : List Nat) :
    run st (b :: l) = run (rxData st b) l := rfl

theorem run_nil (st : Machine) : run st [] = st := rfl

/-! ## Merge-step equations and table-invariant preservation -/

theorem mergeStep_eq_some {p : List (List Nat × List Nat) × Nat}
    {f : List Nat × List Nat} {j : Nat}
    (hfind : (List.range (p.2 + 1)).find?
        (fun j => decide ((p.1.getD j ([], [])).1 = f.1)) = some j) :
    mergeStep p f = (p.1.set j ((p.1.getD j ([], [])).1, f.2), p.2) := by
  unfold mergeStep
  rw [hfind]

theorem mergeStep_eq_none {p : List (List Nat × List Nat) × Nat}
    {f : List Nat × List Nat}
    (hfind : (List.range (p.2 + 1)).find?
        (fun j => decide ((p.1.getD j ([], [])).1 = f.1)) = none) :
    mergeStep p f = (p.1.set p.2 f, if 40 ≤ p.2 + 1 then 39 else p.2 + 1) := by
  unfold mergeStep
  rw [hfind]

theorem nameAt_set_ne {vd : List (List Nat × List Nat)} {i k : Nat}
    {f : List Nat × List Nat} (h : i ≠ k) : nameAt (vd.set i f) k = nameAt vd k := by
  unfold nameAt
  rw [getD_set_ne h]

theorem nameAt_set_self {vd : List (List Nat × List Nat)} {i : Nat}
    {f : List Nat × List Nat} (h : i < vd.length) : nameAt (vd.set i f) i = f.1 := by
  unfold nameAt
  rw [getD_set_self h]

theorem find_none_names {p : List (List Nat × List Nat) × Nat} {f : List Nat × List Nat}
    (hfind : (List.range (p.2 + 1)).find?
        (fun j => decide ((p.1.getD j ([], [])).1 = f.1)) = none) :
    ∀ k, k ≤ p.2 → nameAt p.1 k ≠ f.1 := by
  intro k hk
  have := List.find?_eq_none.mp hfind k (List.mem_range.mpr (by omega))
  simpa [nameAt] using this

theorem mergeStep_inv {p : List (List Nat × List Nat) × Nat} {f : List Nat × List Nat}
    (h : TableInvP p.1 p.2) : TableInvP (mergeStep p f).1 (mergeStep p f).2 := by
  obtain ⟨vd, ve⟩ := p
  obtain ⟨len40, hve, dist, nonemp, fresh⟩ := h
  dsimp only at len40 hve dist nonemp fresh
  rcases hfind : (List.range (ve + 1)).find?
      (fun j => decide ((vd.getD j ([], [])).1 = f.1)) with _ | j
  · -- no existing entry: append at veEnd with the 40-cap
    have hno : ∀ k, k ≤ ve → nameAt vd k ≠ f.1 :=
      find_none_names (p := (vd, ve)) hfind
    rw [mergeStep_eq_none (p := (vd, ve)) hfind]
    dsimp only
    rcases Nat.lt_or_ge ve 39 with h39 | h39
    · -- table not yet full
      have hlt : ¬ 40 ≤ ve + 1 := by omega
      have hf1 : f.1 ≠ [] := by
        intro hf
        exact hno ve (le_refl _) ((fresh h39 ve (le_refl _)).trans hf.symm)
      refine ⟨by simp [len40], by simp only [hlt, if_false]; omega, ?_, ?_, ?_⟩
      · intro i j hij hj
        simp only [hlt, if_false] at hj
        rcases Nat.lt_or_ge j ve with hj2 | hj2
        · rw [nameAt_set_ne (by omega), nameAt_set_ne (by omega)]
          exact dist i j hij hj2
        · have hj2' : j = ve := by omega
          subst hj2'
          rw [nameAt_set_ne (by omega), nameAt_set_self (by omega)]
          exact hno i (by omega)
      · intro j hj
        simp only [hlt, if_false] at hj
        rcases Nat.lt_or_ge j ve with hj2 | hj2
        · rw [nameAt_set_ne (by omega)]
          exact nonemp j hj2
        · have hj2' : j = ve := by omega
          subst hj2'
          rw [nameAt_set_self (by omega)]
          exact hf1
      · intro h39' j hj
        simp only [hlt, if_false] at h39' hj
        rw [nameAt_set_ne (by omega)]
        exact fresh (by omega) j (by omega)
    · -- table full: veEnd = 39, write goes to slot 39
      have h39' : ve = 39 := by omega
      subst h39'
      simp only [show (40 ≤ 39 + 1) = True by simp, if_true]
      refine ⟨by simp [len40], le_refl _, ?_, ?_, by omega⟩
      · intro i j hij hj
        simp only at hj
        rw [nameAt_set_ne (by omega), nameAt_set_ne (by omega)]
        exact dist i j hij hj
      · intro j hj
        simp only at hj
        rw [nameAt_set_ne (by omega)]
        exact nonemp j hj
  · -- existing entry: overwrite the value in place, names unchanged
    have hj : j ≤ ve := by
      have h1 := List.mem_of_find?_eq_some hfind
      have h2 := List.mem_range.mp h1
      omega
    rw [mergeStep_eq_some (p := (vd, ve)) hfind]
    dsimp only
    have hnames : ∀ k, nameAt (vd.set j ((vd.getD j ([], [])).1, f.2)) k = nameAt vd k := by
      intro k
      rcases eq_or_ne j k with rfl | hk
      · rw [nameAt_set_self (by omega)]
        rfl
      · exact nameAt_set_ne hk
    exact ⟨by simp [len40], hve,
      fun i j' hij hj' => by rw [hnames, hnames]; exact dist i j' hij hj',
      fun j' hj' => by rw [hnames]; exact nonemp j' hj',
      fun h39 j' hj' => by rw [hnames]; exact fresh h39 j' hj'⟩

theorem foldl_mergeStep_inv {l : List (List Nat × List Nat)}
    {p : List (List Nat × List Nat) × Nat} (h : TableInvP p.1 p.2) :
    TableInvP (l.foldl mergeStep p).1 (l.foldl mergeStep p).2 := by
  induction l generalizing p with
  | nil => exact h
  | cons f fs ih => exact ih (mergeStep_inv h)

/-! ## Machine-invariant preservation -/

theorem rxDivert_inv {st : Machine} {b : Nat} (h : MachineInv st) :
    MachineInv (rxDivert st b) := by
  obtain ⟨⟨h1, h2, h3, h4, h5, h6⟩, hT⟩ := h
  unfold rxDivert
  split
  · exact ⟨⟨h1, h2, h3, by dsimp only; omega, h5, h6⟩, hT⟩
  · exact ⟨⟨h1, h2, h3, h4, h5, h6⟩, hT⟩

theorem rxChk_inv {st : Machine} {b : Nat} (h : MachineInv st) :
    MachineInv (rxChk st b) := by
  obtain ⟨⟨h1, h2, h3, h4, h5, h6⟩, hT⟩ := h
  unfold rxChk
  split
  · exact ⟨⟨h1, h2, h3, h4, h5, by dsimp only; omega⟩, hT⟩
  · exact ⟨⟨h1, h2, h3, h4, h5, h6⟩, hT⟩

theorem textRxEvent_inv {st : Machine} (h : MachineInv st) :
    MachineInv (textRxEvent st) := by
  obtain ⟨⟨h1, h2, h3, h4, h5, h6⟩, hT⟩ := h
  unfold textRxEvent
  split
  · next hlen => exact ⟨⟨h1, h2, by simp; omega, h4, h5, h6⟩, hT⟩
  · exact ⟨⟨h1, h2, h3, h4, h5, h6⟩, hT⟩

theorem frameEndEvent_inv {st : Machine} {valid : Bool} (h : MachineInv st) :
    MachineInv (frameEndEvent st valid) := by
  obtain ⟨⟨h1, h2, h3, h4, h5, h6⟩, hT⟩ := h
  unfold frameEndEvent
  split
  · exact ⟨⟨h1, h2, by simp, h4, h5, h6⟩,
      foldl_mergeStep_inv (l := st.tempData) (p := (st.veData, st.veEnd)) hT⟩
  · exact ⟨⟨h1, h2, by simp, h4, h5, h6⟩, hT⟩

theorem hexRxEvent_inv {st : Machine} {b : Nat} (h : MachineInv st) :
    MachineInv (hexRxEvent st b) := by
  obtain ⟨⟨h1, h2, h3, h4, h5, h6⟩, hT⟩ := h
  unfold hexRxEvent
  split
  · split
    · exact ⟨⟨h1, h2, h3, h4, h5, h6⟩, hT⟩
    · exact ⟨⟨h1, h2, h3, h4, h5, h6⟩, hT⟩
  · split
    · exact ⟨⟨h1, h2, h3, by simp, by simp [h5], h6⟩, hT⟩
    · next hof => exact ⟨⟨h1, h2, h3, by simp; omega, by simp [h5], h6⟩, hT⟩

theorem rxSwitch_inv {st : Machine} {b : Nat} (h : MachineInv st) :
    MachineInv (rxSwitch st b) := by
  obtain ⟨⟨h1, h2, h3, h4, h5, h6⟩, hT⟩ := h
  cases hs : st.mState
  case idle =>
      simp only [rxSwitch, hs]
      split
      · exact ⟨⟨h1, h2, h3, h4, h5, h6⟩, hT⟩
      · exact ⟨⟨h1, h2, h3, h4, h5, h6⟩, hT⟩
  case recordBegin =>
      simp only [rxSwitch, hs]
      exact ⟨⟨by simp, h2, h3, h4, h5, h6⟩, hT⟩
  case recordName =>
      simp only [rxSwitch, hs]
      split
      · split
        · exact ⟨⟨h1, h2, h3, h4, h5, h6⟩, hT⟩
        · exact ⟨⟨h1, by simp, h3, h4, h5, h6⟩, hT⟩
      · split
        · next hlen => exact ⟨⟨by simp; omega, h2, h3, h4, h5, h6⟩, hT⟩
        · exact ⟨⟨h1, h2, h3, h4, h5, h6⟩, hT⟩
  case recordValue =>
      simp only [rxSwitch, hs]
      split
      · obtain ⟨⟨g1, g2, g3, g4, g5, g6⟩, gT⟩ :=
          textRxEvent_inv ⟨⟨h1, h2, h3, h4, h5, h6⟩, hT⟩
        exact ⟨⟨g1, g2, g3, g4, g5, g6⟩, gT⟩
      · split
        · exact ⟨⟨h1, h2, h3, h4, h5, h6⟩, hT⟩
        · split
          · next hlen => exact ⟨⟨h1, by simp; omega, h3, h4, h5, h6⟩, hT⟩
          · exact ⟨⟨h1, h2, h3, h4, h5, h6⟩, hT⟩
  case chksum =>
      simp only [rxSwitch, hs]
      obtain ⟨⟨g1, g2, g3, g4, g5, g6⟩, gT⟩ :=
        @frameEndEvent_inv { st with mState := MState.idle }
          (st.ignoreCheckSum || (st.mChecksum == 0))
          ⟨⟨h1, h2, h3, h4, h5, h6⟩, hT⟩
      exact ⟨⟨g1, g2, g3, g4, g5, by dsimp only; omega⟩, gT⟩
  case recordHex =>
      simp only [rxSwitch, hs]
      exact hexRxEvent_inv ⟨⟨h1, h2, h3, h4, h5, h6⟩, hT⟩

theorem rxData_inv {st : Machine} {b : Nat} (h : MachineInv st) :
    MachineInv (rxData st b) :=
  rxSwitch_inv (rxChk_inv (rxDivert_inv h))

theorem veInit_inv : MachineInv veInit := by
  refine ⟨⟨by simp [veInit], by simp [veInit], by simp [veInit], by simp [veInit],
    by simp [veInit], by simp [veInit]⟩, ?_⟩
  refine ⟨by simp [veInit], by simp [veInit], ?_, ?_, ?_⟩
  · intro i j _ hj
    simp [veInit] at hj
  · intro j hj
    simp [veInit] at hj
  · intro _ j _
    have h : nameAt (List.replicate 40 (([], []) : List Nat × List Nat)) j = [] := by
      unfold nameAt
      rw [getD_replicate]
    exact h

theorem run_inv {st : Machine} (h : MachineInv st) (bs : List Nat) :
    MachineInv (run st bs) := by
  induction bs generalizing st with
  | nil => exact h
  | cons b l ih => exact ih (rxData_inv h)

/-! ## Further helpers for the table claims -/

theorem nameAt_append_replicate {l : List (List Nat × List Nat)} {m j : Nat}
    (h : l.length ≤ j) : nameAt (l ++ List.replicate m ([], [])) j = [] := by
  unfold nameAt
  rw [List.getD_append_right _ _ _ _ h, getD_replicate]

theorem map_fst_set_same {l : List (List Nat × List Nat)} {j : Nat} {y : List Nat}
    (h : j < l.length) :
    (l.set j ((l.getD j ([], [])).1, y)).map Prod.fst = l.map Prod.fst := by
  induction l generalizing j with
  | nil => simp at h
  | cons x xs ih =>
      cases j with
      | zero => simp [List.getD]
      | succ j =>
          have := ih (j := j) (by simpa using h)
          simp only [List.set, List.map_cons]
          rw [show ((x :: xs).getD (j + 1) ([], [])) = xs.getD j ([], []) by simp [List.getD]]
          rw [this]

theorem tableInvReplicate : TableInvP (List.replicate 40 ([], [])) 0 := by
  refine ⟨by simp, by omega, ?_, ?_, ?_⟩
  · intro i j _ hj
    omega
  · intro j hj
    omega
  · intro _ j _
    unfold nameAt
    rw [getD_replicate]

/-- C3: for every byte sequence fed one byte at a time into a fresh decoder,
all cursors and indices stay within the declared buffer bounds: the name
cursor within mName[0..8], the value cursor within mValue[0..32], the
pending-frame index within [0,22] (so every tempData access index is below
22), the hex index within [0,100) and the table index within [0,40); in this
embedding all buffer accesses are total and in bounds. -/
theorem C3_no_buffer_overrun (bs : List Nat) :
    (run veInit bs).mName.length ≤ 8 ∧ (run veInit bs).mValue.length ≤ 32 ∧
      (run veInit bs).tempData.length ≤ 22 ∧ (run veInit bs).veHEnd < 100 ∧
      (run veInit bs).veEnd < 40 ∧ (run veInit bs).veData.length = 40 ∧
      (run veInit bs).veHexBuffer.length = 100 := by
  obtain ⟨⟨h1, h2, h3, h4, h5, _⟩, hT⟩ := run_inv veInit_inv bs
  exact ⟨h1, h2, h3, by omega, by have := hT.ve_le; omega, hT.len40, h5⟩

/-- C10: veEnd never exceeds 39 after any input; and once the table is full
(veEnd = 39), a first-seen name (one not present in veData[0..39)) is written
to slot 39 — never past the end — leaving entries 0..38 untouched and veEnd
at 39. -/
theorem C10_full_table_cap :
    (∀ bs : List Nat, (run veInit bs).veEnd ≤ 39) ∧
      (∀ (vd : List (List Nat × List Nat)) (n v : List Nat), vd.length = 40 →
        (∀ j, j < 39 → nameAt vd j ≠ n) →
        mergeStep (vd, 39) (n, v) = (vd.set 39 (n, v), 39) ∧
          (vd.set 39 (n, v)).take 39 = vd.take 39) := by
  constructor
  · intro bs
    exact (run_inv veInit_inv bs).2.ve_le
  · intro vd n v hlen hno
    refine ⟨?_, take_set_of_le vd 39 39 (n, v) (le_refl 39)⟩
    rcases hfind : (List.range (39 + 1)).find?
        (fun k => decide ((vd.getD k ([], [])).1 = n)) with _ | j
    · rw [mergeStep_eq_none (p := (vd, 39)) (f := (n, v)) hfind]
      simp
    · have hj := List.mem_range.mp (List.mem_of_find?_eq_some hfind)
      have hname : (vd.getD j ([], [])).1 = n :=
        of_decide_eq_true (List.find?_some (p := fun k => decide ((vd.getD k ([], [])).1 = n)) hfind)
      have hj39 : j = 39 := by
        by_contra hne
        exact hno j (by omega) hname
      subst hj39
      rw [mergeStep_eq_some (p := (vd, 39)) (f := (n, v)) hfind]
      dsimp only
      rw [hname]

/-- Witness for C10 at a concrete full table. -/
theorem C10_full_table_cap_witness :
    (run veInit []).veEnd ≤ 39 ∧
      mergeStep (List.replicate 40 ([], []), 39) ([65], [49])
        = ((List.replicate 40 ([], [])).set 39 ([65], [49]), 39) :=
  ⟨C10_full_table_cap.1 [],
    (C10_full_table_cap.2 (List.replicate 40 ([], [])) [65] [49] (by decide)
      (fun j hj => by
        intro hc
        rw [show nameAt (List.replicate 40 ([], [])) j = [] from by
          unfold nameAt; rw [getD_replicate]] at hc
        exact absurd hc.symm (by decide))).1⟩

/-- C4 counterexample: a valid frame whose single field has an empty name
(first name byte is NUL) is delivered to the pending frame, the frame is
accepted (newDataAvailable becomes true), yet the first-seen name is NOT
appended at position veEnd: the inclusive scan `j <= veEnd` matches the
unpublished all-zero slot at index veEnd, so only that slot's value is
overwritten and veEnd stays 0 — refuting "a first-seen name is appended at
position veEnd". -/
theorem C4_unique_names_counterexample :
    (run veInit [10, 0, 9, 118, 10]).tempData = [([], [118])] ∧
      (run veInit ([10, 0, 9, 118, 10] ++ checksumTagSent ++ [9, 49])).newDataAvailable = true ∧
      (run veInit ([10, 0, 9, 118, 10] ++ checksumTagSent ++ [9, 49])).veEnd = 0 := by
  refine ⟨by decide, by decide, by decide⟩

/-- C4 (amended): after any input the published names veData[0..veEnd) are
pairwise distinct; when a field of a valid frame is merged, a name already in
the table overwrites that entry's value in place, changing neither veEnd nor
any name; and a first-seen NONEMPTY name is written at position veEnd, with
veEnd advancing below the cap (an empty name — only producible by a NUL first
byte — instead updates the hidden slot at veEnd, as the counterexample
shows). -/
theorem C4_unique_names :
    (∀ (bs : List Nat) (i j : Nat), i < j → j < (run veInit bs).veEnd →
        nameAt (run veInit bs).veData i ≠ nameAt (run veInit bs).veData j) ∧
      (∀ (vd : List (List Nat × List Nat)) (ve : Nat) (n v : List Nat) (j : Nat),
        TableInvP vd ve → j < ve → nameAt vd j = n →
        mergeStep (vd, ve) (n, v) = (vd.set j (n, v), ve) ∧
          (vd.set j (n, v)).map Prod.fst = vd.map Prod.fst) ∧
      (∀ (vd : List (List Nat × List Nat)) (ve : Nat) (n v : List Nat),
        TableInvP vd ve → (∀ j, j < ve → nameAt vd j ≠ n) → n ≠ [] →
        mergeStep (vd, ve) (n, v) = (vd.set ve (n, v), min (ve + 1) 39)) := by
  refine ⟨?_, ?_, ?_⟩
  · intro bs i j hij hj
    exact (run_inv veInit_inv bs).2.distinct i j hij hj
  · intro vd ve n v j hT hj hname
    have hfind : (List.range (ve + 1)).find?
        (fun k => decide ((vd.getD k ([], [])).1 = n)) = some j := by
      apply find_range_eq_some (by omega)
      · exact decide_eq_true hname
      · intro k hk
        apply decide_eq_false
        intro hc
        exact hT.distinct k j hk hj (by rw [show nameAt vd k = (vd.getD k ([], [])).1 from rfl, hc, ← hname])
    have hset : (vd.getD j ([], [])).1 = n := hname
    constructor
    · rw [mergeStep_eq_some (p := (vd, ve)) (f := (n, v)) hfind]
      dsimp only
      rw [hset]
    · rw [show (vd.set j (n, v)) = vd.set j ((vd.getD j ([], [])).1, v) from by rw [hset]]
      exact map_fst_set_same (by have := hT.ve_le; rw [hT.len40]; omega)
  · intro vd ve n v hT hno hne
    rcases hfind : (List.range (ve + 1)).find?
        (fun k => decide ((vd.getD k ([], [])).1 = n)) with _ | j
    · rw [mergeStep_eq_none (p := (vd, ve)) (f := (n, v)) hfind]
      dsimp only
      have : (if 40 ≤ ve + 1 then 39 else ve + 1) = min (ve + 1) 39 := by
        have := hT.ve_le
        split <;> omega
      rw [this]
    · have hj : j ≤ ve := by
        have := List.mem_range.mp (List.mem_of_find?_eq_some hfind)
        omega
      have hname : (vd.getD j ([], [])).1 = n :=
        of_decide_eq_true
          (List.find?_some (p := fun k => decide ((vd.getD k ([], [])).1 = n)) hfind)
      have hjve : j = ve := by
        by_contra hne'
        exact hno j (by omega) hname
      subst hjve
      have hve39 : j = 39 := by
        by_contra h39
        have hfr := hT.fresh (by have := hT.ve_le; omega) j (le_refl _)
        rw [show nameAt vd j = (vd.getD j ([], [])).1 from rfl, hname] at hfr
        exact hne hfr
      rw [mergeStep_eq_some (p := (vd, j)) (f := (n, v)) hfind]
      dsimp only
      rw [hname, hve39]
      rfl

/-- Witness for C4 at concrete inputs: in-place update and fresh append. -/
theorem C4_unique_names_witness :
    (([65] : List Nat) ≠ [] ∧
        mergeStep (List.replicate 40 ([], []), 0) ([65], [49])
          = ((List.replicate 40 ([], [])).set 0 ([65], [49]), min 1 39)) ∧
      nameAt [([65], [48]), ([66], [50])] 0 = [65] ∧
        mergeStep ([([65], [48]), ([66], [50])] ++ List.replicate 38 ([], []), 2) ([65], [51])
          = (([([65], [48]), ([66], [50])] ++ List.replicate 38 ([], [])).set 0 ([65], [51]), 2) := by
  refine ⟨⟨by decide, ?_⟩, by decide, ?_⟩
  · exact C4_unique_names.2.2 (List.replicate 40 ([], [])) 0 [65] [49] tableInvReplicate
      (fun j hj => by omega) (by decide)
  · refine (C4_unique_names.2.1 ([([65], [48]), ([66], [50])] ++ List.replicate 38 ([], []))
      2 [65] [51] 0 ?_ (by omega) (by decide)).1
    refine ⟨by decide, by omega, ?_, ?_, ?_⟩
    · intro i j hij hj
      interval_cases j
      · omega
      · interval_cases i
        decide
    · intro j hj
      interval_cases j <;> decide
    · intro h j hj
      exact nameAt_append_replicate (by simp; omega)

/-! ## Hex sub-protocol state transitions and buffer preservation -/

theorem hexRxEvent_preserves (st : Machine) (b : Nat) :
    (hexRxEvent st b).mChecksum = st.mChecksum ∧ (hexRxEvent st b).mName = st.mName ∧
      (hexRxEvent st b).mValue = st.mValue ∧ (hexRxEvent st b).tempData = st.tempData := by
  unfold hexRxEvent
  split
  · split <;> exact ⟨rfl, rfl, rfl, rfl⟩
  · split <;> exact ⟨rfl, rfl, rfl, rfl⟩

/-- C6: in RecordHex, a newline returns the machine to the state pushed at
the last ':' diversion (whether or not the hex checksum validates — no
validity hypothesis appears); any other byte either leaves the machine in
RecordHex, or — when it fills the 100-byte buffer, which a ':' cannot since
it restarts the buffer — resets the hex length to 0 and forces Idle. -/
theorem hexRxEvent_nl_mState (st : Machine) : (hexRxEvent st 10).mState = st.vePushedState := by
  unfold hexRxEvent
  split
  · split <;> rfl
  · next h => exact absurd rfl h

theorem hexRxEvent_append (st : Machine) {b : Nat} (hb : b ≠ 10)
    (hof : ¬ 100 ≤ st.veHEnd + 1) :
    hexRxEvent st b =
      { st with
          veHexBuffer := st.veHexBuffer.set st.veHEnd b
          veHEnd := st.veHEnd + 1
          mState := MState.recordHex } := by
  unfold hexRxEvent
  rw [if_neg hb, if_neg hof]

theorem hexRxEvent_overflow (st : Machine) {b : Nat} (hb : b ≠ 10)
    (hof : 100 ≤ st.veHEnd + 1) :
    hexRxEvent st b =
      { st with
          veHexBuffer := st.veHexBuffer.set st.veHEnd b
          veHEnd := 0
          mState := MState.idle } := by
  unfold hexRxEvent
  rw [if_neg hb, if_pos hof]

theorem C6_hex_transitions (st : Machine) (b : Nat)
    (hs : st.mState = MState.recordHex) (hb : st.veHEnd ≤ 99) :
    (b = 10 → (rxData st b).mState = st.vePushedState) ∧
      (b ≠ 10 →
        if b ≠ 58 ∧ st.veHEnd = 99 then
          (rxData st b).veHEnd = 0 ∧ (rxData st b).mState = MState.idle
        else (rxData st b).mState = MState.recordHex) := by
  constructor
  · intro hb10
    subst hb10
    rw [rxData_hex hs (by decide)]
    exact hexRxEvent_nl_mState st
  · intro hb10
    by_cases h58 : b = 58
    · subst h58
      rw [if_neg (by simp)]
      rw [rxData_divert (by rw [hs]; intro hc; cases hc)]
      rw [hexRxEvent_append _ (by decide) (show ¬ (100 ≤ 0 + 1) by decide)]
    · by_cases hfull : st.veHEnd = 99
      · rw [if_pos ⟨h58, hfull⟩, rxData_hex hs h58,
          hexRxEvent_overflow st hb10 (by omega)]
        exact ⟨rfl, rfl⟩
      · rw [if_neg (fun hc => hfull hc.2), rxData_hex hs h58,
          hexRxEvent_append st hb10 (by omega)]

/-- Witness for C6: after a ':' the machine is in RecordHex; a newline
returns it to the pushed state. -/
theorem C6_hex_transitions_witness :
    (run veInit [58]).mState = MState.recordHex ∧ (run veInit [58]).veHEnd ≤ 99 ∧
      (rxData (run veInit [58]) 10).mState = (run veInit [58]).vePushedState :=
  ⟨by decide, by decide,
    (C6_hex_transitions (run veInit [58]) 10 (by decide) (by decide)).1 rfl⟩

/-- C7 counterexample: the byte 'A' accumulated in RecordName before a ':'
diversion IS resumed after the interrupting hex frame: feeding
"\nA", ":", "\n", "B\t1\n" delivers the field ("AB", "1") to the pending
frame, so the pre-diversion partial content does appear in a delivered
field, refuting the claim that it is discarded. -/
theorem C7_partial_discard_counterexample :
    (run veInit [10, 65, 58, 10, 66, 9, 49, 10]).tempData = [([65, 66], [49])] := by
  decide

/-- C7 (amended): the ':' diversion and every byte consumed in RecordHex
leave the partial name buffer, the partial value buffer and the pending
frame untouched — the partial field content survives the diversion and
accumulation resumes from it (it is not discarded). -/
theorem C7_partial_buffers_survive (st : Machine) (b : Nat)
    (h : st.mState = MState.recordHex ∨ (b = 58 ∧ st.mState ≠ MState.chksum)) :
    (rxData st b).mName = st.mName ∧ (rxData st b).mValue = st.mValue ∧
      (rxData st b).tempData = st.tempData := by
  by_cases h58 : b = 58
  · subst h58
    have hne : st.mState ≠ MState.chksum := by
      rcases h with h | h
      · rw [h]; intro hc; cases hc
      · exact h.2
    rw [rxData_divert hne]
    have hp := hexRxEvent_preserves
      { st with vePushedState := st.mState, mState := MState.recordHex, veHEnd := 0 } 58
    exact ⟨hp.2.1, hp.2.2.1, hp.2.2.2⟩
  · have hs : st.mState = MState.recordHex := by
      rcases h with h | h
      · exact h
      · exact absurd h.1 h58
    rw [rxData_hex hs h58]
    have hp := hexRxEvent_preserves st b
    exact ⟨hp.2.1, hp.2.2.1, hp.2.2.2⟩

/-- Witness for C7 (amended) at a concrete diversion. -/
theorem C7_partial_buffers_survive_witness :
    ((run veInit [10, 65]).mState = MState.recordHex ∨
        ((58 : Nat) = 58 ∧ (run veInit [10, 65]).mState ≠ MState.chksum)) ∧
      (rxData (run veInit [10, 65]) 58).mName = (run veInit [10, 65]).mName ∧
      (rxData (run veInit [10, 65]) 58).mValue = (run veInit [10, 65]).mValue ∧
      (rxData (run veInit [10, 65]) 58).tempData = (run veInit [10, 65]).tempData :=
  ⟨Or.inr ⟨rfl, by decide⟩,
    C7_partial_buffers_survive (run veInit [10, 65]) 58 (Or.inr ⟨rfl, by decide⟩)⟩

/-- C8: the first byte of a record name is buffered WITHOUT caseic
normalization in RECORD_BEGIN (only subsequent RECORD_NAME bytes are
upper-cased), so the record tag "checksum" (lower-case first byte) is NOT
recognized as the reserved CHECKSUM record — the machine proceeds to
RECORD_VALUE with mName = "cHECKSUM" — while "Checksum" is recognized. This
contradicts the code's own comment ("we upper all chars in the progress")
and the specification. -/
theorem C8_first_byte_not_uppercased :
    (run veInit ([10] ++ [99, 104, 101, 99, 107, 115, 117, 109] ++ [9])).mState
        = MState.recordValue ∧
      (run veInit ([10] ++ [99, 104, 101, 99, 107, 115, 117, 109] ++ [9])).mName
        = [99, 72, 69, 67, 75, 83, 85, 77] ∧
      (run veInit ([10] ++ checksumTagSent ++ [9])).mState = MState.chksum := by
  refine ⟨by decide, by decide, by decide⟩

/-- C9 counterexample: the checksum accumulator is reset when the frame
completes at the FIRST byte received in the Checksum state (the checksum
byte itself), not at the record's terminating newline: after
"\nChecksum\t" ++ [186] the accumulator is already 0, and after the
following terminating newline (consumed in Idle) it is 10, not 0 — refuting
"reset to 0 at the terminating newline". -/
theorem C9_reset_at_newline_counterexample :
    (run veInit ([10] ++ checksumTagSent ++ [9, 186])).mChecksum = 0 ∧
      (run veInit ([10] ++ checksumTagSent ++ [9, 186, 10])).mChecksum = 10 := by
  exact ⟨by decide, by decide⟩

/-- C9 (amended): every byte consumed outside RecordHex and outside the
Checksum state — including bytes consumed in Idle — is added mod 256 to the
running checksum; bytes consumed in RecordHex, and the diverting ':' itself,
leave the accumulator unchanged; and the single byte consumed in the
Checksum state (the frame-completing byte — not a later newline) is added
for the validity decision, after which the accumulator is reset to 0
regardless of the frame's validity. -/
theorem rxSwitch_mChecksum_preserved (st : Machine) (b : Nat)
    (hchk : st.mState ≠ MState.chksum) (hhex : st.mState ≠ MState.recordHex) :
    (rxSwitch st b).mChecksum = st.mChecksum := by
  cases hs : st.mState
  case idle =>
      simp only [rxSwitch, hs]
      split <;> rfl
  case recordBegin =>
      simp only [rxSwitch, hs]
  case recordName =>
      simp only [rxSwitch, hs]
      split
      · split <;> rfl
      · split <;> rfl
  case recordValue =>
      simp only [rxSwitch, hs]
      split
      · unfold textRxEvent
        split <;> rfl
      · split
        · rfl
        · split <;> rfl
  case chksum => exact absurd hs hchk
  case recordHex => exact absurd hs hhex

theorem rxDivert_eq_of_ne {st : Machine} {b : Nat} (h58 : b ≠ 58) : rxDivert st b = st := by
  unfold rxDivert
  rw [if_neg]
  intro hc
  exact h58 hc.1

theorem rxChk_eq_of_ne {st : Machine} {b : Nat} (hhex : st.mState ≠ MState.recordHex) :
    rxChk st b = { st with mChecksum := (st.mChecksum + b) % 256 } := by
  unfold rxChk
  rw [if_pos hhex]

theorem C9_checksum_accumulation (st : Machine) (b : Nat) :
    (st.mState ≠ MState.recordHex → st.mState ≠ MState.chksum → b ≠ 58 →
        (rxData st b).mChecksum = (st.mChecksum + b) % 256) ∧
      ((st.mState = MState.recordHex ∨ (b = 58 ∧ st.mState ≠ MState.chksum)) →
        (rxData st b).mChecksum = st.mChecksum) ∧
      (st.mState = MState.chksum → (rxData st b).mChecksum = 0) := by
  refine ⟨?_, ?_, ?_⟩
  · intro hhex hchk h58
    show (rxSwitch (rxChk (rxDivert st b) b) b).mChecksum = _
    rw [rxDivert_eq_of_ne h58, rxChk_eq_of_ne hhex]
    exact rxSwitch_mChecksum_preserved _ b hchk hhex
  · intro h
    by_cases h58 : b = 58
    · subst h58
      have hne : st.mState ≠ MState.chksum := by
        rcases h with h | h
        · rw [h]; intro hc; cases hc
        · exact h.2
      rw [rxData_divert hne]
      exact (hexRxEvent_preserves _ 58).1
    · have hs : st.mState = MState.recordHex := by
        rcases h with h | h
        · exact h
        · exact absurd h.1 h58
      rw [rxData_hex hs h58]
      exact (hexRxEvent_preserves st b).1
  · intro hs
    rw [rxData_chksum hs]

/-- Witness for C9 (amended) at a concrete byte in Idle. -/
theorem C9_checksum_accumulation_witness :
    (veInit.mState ≠ MState.recordHex ∧ veInit.mState ≠ MState.chksum ∧ (65 : Nat) ≠ 58) ∧
      (rxData veInit 65).mChecksum = (veInit.mChecksum + 65) % 256 :=
  ⟨⟨by decide, by decide, by decide⟩,
    (C9_checksum_accumulation veInit 65).1 (by decide) (by decide) (by decide)⟩

/-! ## Parsing a serialized frame -/

theorem run_name_bytes (cs : List Nat) (st : Machine)
    (hs : st.mState = MState.recordName)
    (hcs : ∀ c ∈ cs, c ≠ 9 ∧ c ≠ 58)
    (hlen : st.mName.length + cs.length ≤ 8)
    (hchk : st.mChecksum ≤ 255) :
    run st cs =
      { st with
          mName := st.mName ++ cs.map toUpperByte
          mChecksum := (st.mChecksum + cs.sum) % 256 } := by
  induction cs generalizing st with
  | nil =>
      show st = _
      rw [List.map_nil, List.append_nil, List.sum_nil, Nat.add_zero,
        Nat.mod_eq_of_lt (by omega)]
  | cons c cs ih =>
      obtain ⟨hc9, hc58⟩ := hcs c (by simp)
      rw [run_cons, rxData_name_char hs hc9 hc58 (by simp at hlen; omega)]
      rw [ih _ (by exact hs) (fun d hd => hcs d (by simp [hd])) (by simp; simp at hlen; omega)
        (by exact Nat.le_of_lt_succ (Nat.mod_lt _ (by omega)))]
      simp only [Machine.mk.injEq, List.append_assoc, List.singleton_append,
        List.map_cons, List.sum_cons, and_true, true_and]
      omega

theorem run_value_bytes (cs : List Nat) (st : Machine)
    (hs : st.mState = MState.recordValue)
    (hcs : ∀ c ∈ cs, c ≠ 10 ∧ c ≠ 13 ∧ c ≠ 58)
    (hlen : st.mValue.length + cs.length ≤ 32)
    (hchk : st.mChecksum ≤ 255) :
    run st cs =
      { st with
          mValue := st.mValue ++ cs
          mChecksum := (st.mChecksum + cs.sum) % 256 } := by
  induction cs generalizing st with
  | nil =>
      show st = _
      rw [List.append_nil, List.sum_nil, Nat.add_zero, Nat.mod_eq_of_lt (by omega)]
  | cons c cs ih =>
      obtain ⟨hc10, hc13, hc58⟩ := hcs c (by simp)
      rw [run_cons, rxData_value_char hs hc10 hc13 hc58 (by simp at hlen; omega)]
      rw [ih _ (by exact hs) (fun d hd => hcs d (by simp [hd])) (by simp; simp at hlen; omega)
        (by exact Nat.le_of_lt_succ (Nat.mod_lt _ (by omega)))]
      simp only [Machine.mk.injEq, List.append_assoc, List.singleton_append,
        List.sum_cons, and_true, true_and]
      omega

theorem run_field (n v : List Nat) (st : Machine)
    (hs : st.mState = MState.recordBegin)
    (hwf : WellFormedField (n, v))
    (hchk : st.mChecksum ≤ 255) :
    run st (serField (n, v)) =
      { st with
          mName := n
          mValue := v
          mState := MState.recordBegin
          mChecksum := (st.mChecksum + (serField (n, v)).sum) % 256
          tempData :=
            if st.tempData.length < 22 then st.tempData ++ [(n, v)] else st.tempData } := by
  obtain ⟨hn1, hn8, hv32, hnb, hvb, hntag⟩ := hwf
  dsimp only at hn1 hn8 hv32 hnb hvb hntag
  obtain ⟨n0, n', rfl⟩ : ∃ a l, n = a :: l := by
    cases n with
    | nil => simp at hn1
    | cons a l => exact ⟨a, l, rfl⟩
  have hmap : [n0] ++ List.map toUpperByte n' = n0 :: n' := by
    rw [List.map_congr_left (fun d hd => (hnb d (by simp [hd])).2.2.2.2.2.1)]
    simp
  have hzero : ∀ c ∈ n0 :: n', c ≠ 0 := fun c hc => (hnb c hc).2.2.2.2.1
  have hcstr : cstr ([n0] ++ List.map toUpperByte n') = n0 :: n' := by
    rw [hmap]
    exact cstr_eq_self hzero
  have hser : serField (n0 :: n', v) = n0 :: (n' ++ 9 :: (v ++ [10])) := by
    simp [serField]
  rw [hser, run_cons, rxData_begin hs ((hnb n0 (by simp)).2.2.2.1), run_append,
    run_name_bytes n' _ (by exact rfl)
      (fun d hd => ⟨(hnb d (by simp [hd])).1, (hnb d (by simp [hd])).2.2.2.1⟩)
      (by simp; simp at hn8; omega)
      (by exact Nat.le_of_lt_succ (Nat.mod_lt _ (by omega))),
    run_cons,
    rxData_name_tab_nomatch (by exact rfl)
      (by show cstr ([n0] ++ List.map toUpperByte n') ≠ checksumTagName
          rw [hcstr]
          exact hntag),
    run_append,
    run_value_bytes v _ (by exact rfl)
      (fun d hd => ⟨(hvb d hd).1, (hvb d hd).2.1, (hvb d hd).2.2.1⟩)
      (by simp; omega)
      (by exact Nat.le_of_lt_succ (Nat.mod_lt _ (by omega))),
    run_cons,
    rxData_value_nl (by exact rfl),
    run_nil]
  simp only [Machine.mk.injEq, hcstr, List.nil_append, List.sum_append, List.sum_cons,
    List.sum_nil, serField, and_true, true_and]
  refine ⟨?_, ?_, ?_⟩
  · omega
  · exact hmap
  · split
    · rw [show cstr v = v from cstr_eq_self (fun c hcv => (hvb c hcv).2.2.2.1)]
    · rfl

theorem run_fields (fs : List (List Nat × List Nat)) (st : Machine)
    (hs : st.mState = MState.recordBegin)
    (hwf : ∀ f ∈ fs, WellFormedField f)
    (hlen : st.tempData.length + fs.length ≤ 22)
    (hchk : st.mChecksum ≤ 255) :
    ∃ nm vl, run st (serFields fs) =
      { st with
          mName := nm
          mValue := vl
          mState := MState.recordBegin
          mChecksum := (st.mChecksum + (serFields fs).sum) % 256
          tempData := st.tempData ++ fs } := by
  induction fs generalizing st with
  | nil =>
      refine ⟨st.mName, st.mValue, ?_⟩
      show st = _
      rw [show serFields [] = [] from rfl]
      rw [List.sum_nil, Nat.add_zero, Nat.mod_eq_of_lt (by omega), List.append_nil, ← hs]
  | cons f fs ih =>
      obtain ⟨n, v⟩ := f
      have hser : serFields ((n, v) :: fs) = serField (n, v) ++ serFields fs := by
        simp [serFields]
      rw [hser, run_append,
        run_field n v st hs (hwf (n, v) (by simp)) hchk,
        if_pos (by simp at hlen; omega)]
      obtain ⟨nm, vl, hrec⟩ := ih
        { st with
            mName := n
            mValue := v
            mState := MState.recordBegin
            mChecksum := (st.mChecksum + (serField (n, v)).sum) % 256
            tempData := st.tempData ++ [(n, v)] }
        rfl (fun g hg => hwf g (by simp [hg]))
        (by simp; simp at hlen; omega)
        (Nat.le_of_lt_succ (Nat.mod_lt _ (by omega)))
      rw [hrec]
      refine ⟨nm, vl, ?_⟩
      simp only [hser, Machine.mk.injEq, List.sum_append, List.append_assoc,
        List.singleton_append, and_true, true_and]
      omega

theorem run_checksum_tag (st : Machine)
    (hs : st.mState = MState.recordBegin)
    (hchk : st.mChecksum ≤ 255) :
    run st (checksumTagSent ++ [9]) =
      { st with
          mName := checksumTagName
          mState := MState.chksum
          mChecksum := (st.mChecksum + (checksumTagSent.sum + 9)) % 256 } := by
  have h1 : checksumTagSent ++ [9] = 67 :: ([104, 101, 99, 107, 115, 117, 109] ++ [9]) := by
    rfl
  rw [h1, run_cons, rxData_begin hs (by decide), run_append,
    run_name_bytes [104, 101, 99, 107, 115, 117, 109] _ (by exact rfl)
      (by decide)
      (by simp)
      (by exact Nat.le_of_lt_succ (Nat.mod_lt _ (by omega))),
    run_cons,
    rxData_name_tab_match (by exact rfl)
      (by show cstr ([67] ++ List.map toUpperByte [104, 101, 99, 107, 115, 117, 109])
            = checksumTagName
          decide),
    run_nil]
  simp only [Machine.mk.injEq, and_true, true_and]
  refine ⟨?_, by decide⟩
  simp only [show ([104, 101, 99, 107, 115, 117, 109] : List Nat).sum = 752 from by decide,
    show checksumTagSent.sum = 819 from by decide]
  omega

theorem foldl_merge_fresh (pending : List (List Nat × List Nat)) :
    ∀ done : List (List Nat × List Nat),
      ((done ++ pending).map Prod.fst).Nodup →
      (∀ f ∈ done ++ pending, f.1 ≠ []) →
      done.length + pending.length ≤ 39 →
      pending.foldl mergeStep (done ++ List.replicate (40 - done.length) ([], []), done.length)
        = (done ++ pending ++ List.replicate (40 - done.length - pending.length) ([], []),
            done.length + pending.length) := by
  induction pending with
  | nil =>
      intro done _ _ _
      simp
  | cons f rest ih =>
      intro done hnd hne hlen
      have hlend : done.length ≤ 38 := by
        simp at hlen
        omega
      have hfind : (List.range (done.length + 1)).find?
          (fun k => decide (((done ++ List.replicate (40 - done.length) ([], [])).getD
            k ([], [])).1 = f.1)) = none := by
        apply find_range_eq_none
        intro k hk
        apply decide_eq_false
        rcases Nat.lt_or_ge k done.length with hk2 | hk2
        · rw [List.getD_append _ _ _ _ hk2]
          intro hc
          have hmem : f.1 ∈ done.map Prod.fst := by
            rw [← hc]
            have hkd : done.getD k ([], []) ∈ done := by
              rw [List.getD_eq_getElem _ _ hk2]
              exact List.getElem_mem _
            exact List.mem_map_of_mem Prod.fst hkd
          have hnotin : f.1 ∉ done.map Prod.fst := by
            have hsplit := hnd
            rw [List.map_append, List.nodup_append] at hsplit
            exact fun hmem' => hsplit.2.2 hmem' (by simp)
          exact hnotin hmem
        · have hk3 : k = done.length := by omega
          subst hk3
          rw [List.getD_append_right _ _ _ _ (le_refl _), Nat.sub_self]
          rw [show (40 - done.length) = (39 - done.length) + 1 from by omega]
          rw [show (List.replicate ((39 - done.length) + 1)
            (([], []) : List Nat × List Nat)).getD 0 ([], []) = ([], []) from rfl]
          exact fun hc => hne f (by simp) hc.symm
      rw [List.foldl_cons, mergeStep_eq_none
        (p := (done ++ List.replicate (40 - done.length) ([], []), done.length)) hfind]
      dsimp only
      rw [if_neg (by omega)]
      have hset : (done ++ List.replicate (40 - done.length) ([], [])).set done.length f
          = (done ++ [f]) ++ List.replicate (40 - (done.length + 1)) ([], []) := by
        rw [show (40 - done.length) = (39 - done.length) + 1 from by omega,
          List.replicate_succ, set_append_middle]
        rw [show (40 - (done.length + 1)) = 39 - done.length from by omega]
        simp
      rw [hset]
      have := ih (done ++ [f])
        (by simpa using hnd)
        (by intro g hg; exact hne g (by simpa using hg))
        (by simp; simp at hlen; omega)
      rw [show (done ++ [f]).length = done.length + 1 from by simp] at this
      rw [this, show (40 - (done.length + 1) - rest.length)
          = 40 - done.length - (f :: rest).length from by simp only [List.length_cons]; omega]
      simp only [List.append_assoc, List.singleton_append, List.length_cons, Prod.mk.injEq]
      exact ⟨trivial, by omega⟩

theorem rxData_chksum_invalid {st : Machine} {b : Nat} (h : st.mState = MState.chksum)
    (hign : st.ignoreCheckSum = false) (hbad : (st.mChecksum + b) % 256 ≠ 0) :
    rxData st b = { st with mState := MState.idle, mChecksum := 0, tempData := [] } := by
  rw [rxData_chksum h]
  unfold frameEndEvent
  rw [if_neg (by simp [hign, Nat.beq_eq_true_eq]; omega)]

theorem rxData_chksum_valid {st : Machine} {b : Nat} (h : st.mState = MState.chksum)
    (hgood : st.ignoreCheckSum = true ∨ (st.mChecksum + b) % 256 = 0) :
    rxData st b =
      { st with
          mState := MState.idle
          mChecksum := 0
          newDataAvailable := true
          veData := (st.tempData.foldl mergeStep (st.veData, st.veEnd)).1
          veEnd := (st.tempData.foldl mergeStep (st.veData, st.veEnd)).2
          tempData := [] } := by
  rw [rxData_chksum h]
  unfold frameEndEvent
  rw [if_pos (by rcases hgood with hg | hg <;> simp [hg])]

/-- C1: a single well-formed TEXT frame (nonempty upper-case-normalized
names of at most 8 bytes, distinct, none the CHECKSUM literal; values of at
most 32 bytes; at most 22 fields; no ':' bytes), fed byte-at-a-time into a
fresh decoder after a leading newline and closed by a CHECKSUM record with
checksum byte x, whose running byte-sum mod 256 is 0 when the record's
terminating newline arrives (the sum of all bytes fed before that newline),
publishes exactly the frame's fields in frame order in veData[0..veEnd), and
isDataAvailable() returns true. -/
theorem C1_valid_frame_published (fs : List (List Nat × List Nat)) (x : Nat)
    (hwf : WellFormedFrame fs) (hsum : (frameBytes fs x).sum % 256 = 0) :
    (run veInit (serFrame fs x)).veData.take (run veInit (serFrame fs x)).veEnd = fs ∧
      isDataAvailable (run veInit (serFrame fs x)) = true := by
  obtain ⟨⟨hlen, hwff⟩, hnd⟩ := hwf
  have hexp : (frameBytes fs x).sum
      = 10 + ((serFields fs).sum + (checksumTagSent.sum + (9 + x))) := by
    simp [frameBytes]
    try omega
  have hgood : ((((veInit.mChecksum + 10) % 256 + (serFields fs).sum) % 256
      + (checksumTagSent.sum + 9)) % 256 + x) % 256 = 0 := by
    rw [show veInit.mChecksum = 0 from rfl]
    omega
  have hfb : serFrame fs x
      = 10 :: (serFields fs ++ ((checksumTagSent ++ [9]) ++ (x :: [10]))) := by
    simp [serFrame, frameBytes]
  obtain ⟨nm, vl, hff⟩ := run_fields fs
    { veInit with mChecksum := (veInit.mChecksum + 10) % 256, mState := MState.recordBegin }
    rfl hwff (by simp [veInit]; omega)
    (Nat.le_of_lt_succ (Nat.mod_lt _ (by omega)))
  rw [hfb, run_cons, rxData_idle_nl (by exact rfl), run_append, hff, run_append,
    run_checksum_tag _ (by exact rfl)
      (by exact Nat.le_of_lt_succ (Nat.mod_lt _ (by omega))),
    run_cons,
    rxData_chksum_valid (by exact rfl) (Or.inr (by exact hgood)),
    run_cons, rxData_idle_nl (by exact rfl), run_nil]
  have hmerge : fs.foldl mergeStep (List.replicate 40 ([], []), 0)
      = (fs ++ List.replicate (40 - fs.length) ([], []), fs.length) := by
    have hinst := foldl_merge_fresh fs []
      (by simpa using hnd)
      (by
        intro f hf
        have h1 := (hwff f (by simpa using hf)).1
        intro hc
        rw [hc] at h1
        simp at h1)
      (by simp; omega)
    simpa using hinst
  refine ⟨?_, rfl⟩
  show ((fs.foldl mergeStep (List.replicate 40 ([], []), 0)).1.take
      (fs.foldl mergeStep (List.replicate 40 ([], []), 0)).2) = fs
  rw [hmerge]
  exact List.take_left fs _

/-- Witness for C1: the frame "\nA\t1\nChecksum\t" ++ [53] ++ "\n" sums to
0 mod 256 and publishes A=1. -/
theorem C1_valid_frame_published_witness :
    ((frameBytes [([65], [49])] 53).sum % 256 = 0 ∧ WellFormedFrame [([65], [49])]) ∧
      (run veInit (serFrame [([65], [49])] 53)).veData.take
          (run veInit (serFrame [([65], [49])] 53)).veEnd = [([65], [49])] ∧
        isDataAvailable (run veInit (serFrame [([65], [49])] 53)) = true :=
  ⟨⟨by decide, by unfold WellFormedFrame WellFormedFields WellFormedField goodNameByte goodValueByte toUpperByte checksumTagName; decide⟩,
    C1_valid_frame_published [([65], [49])] 53 (by unfold WellFormedFrame WellFormedFields WellFormedField goodNameByte goodValueByte toUpperByte checksumTagName; decide) (by decide)⟩

/-- C2: a well-formed TEXT frame whose accumulated checksum is nonzero at
its CHECKSUM record's completion (the running sum of the decoder's
accumulator plus all frame bytes through the checksum byte x), with
checksum enforcement enabled, is dropped atomically: the published table,
veEnd and newDataAvailable are unchanged, the pending frame is reset to
empty, the machine returns to Idle, and rxData (a total function) raises no
fault. -/
theorem C2_invalid_frame_dropped (fs : List (List Nat × List Nat)) (x : Nat) (st : Machine)
    (hs : st.mState = MState.idle) (htd : st.tempData = [])
    (hign : st.ignoreCheckSum = false) (hchk : st.mChecksum ≤ 255)
    (hwf : WellFormedFields fs)
    (hbad : (st.mChecksum + (frameBytes fs x).sum) % 256 ≠ 0) :
    (run st (frameBytes fs x)).veData = st.veData ∧
      (run st (frameBytes fs x)).veEnd = st.veEnd ∧
      (run st (frameBytes fs x)).newDataAvailable = st.newDataAvailable ∧
      (run st (frameBytes fs x)).tempData = [] ∧
      (run st (frameBytes fs x)).mState = MState.idle := by
  obtain ⟨hlen, hwff⟩ := hwf
  have hexp : (frameBytes fs x).sum
      = 10 + ((serFields fs).sum + (checksumTagSent.sum + (9 + x))) := by
    simp [frameBytes]
    try omega
  have hbad' : ((((st.mChecksum + 10) % 256 + (serFields fs).sum) % 256
      + (checksumTagSent.sum + 9)) % 256 + x) % 256 ≠ 0 := by
    omega
  have hfb : frameBytes fs x
      = 10 :: (serFields fs ++ ((checksumTagSent ++ [9]) ++ [x])) := by
    simp [frameBytes]
  obtain ⟨nm, vl, hff⟩ := run_fields fs
    { st with mChecksum := (st.mChecksum + 10) % 256, mState := MState.recordBegin }
    rfl hwff (by simp [htd]; omega)
    (Nat.le_of_lt_succ (Nat.mod_lt _ (by omega)))
  rw [hfb, run_cons, rxData_idle_nl hs, run_append, hff, run_append,
    run_checksum_tag _ (by exact rfl)
      (by exact Nat.le_of_lt_succ (Nat.mod_lt _ (by omega))),
    run_cons,
    rxData_chksum_invalid (by exact rfl) (by exact hign) (by exact hbad'),
    run_nil]
  exact ⟨rfl, rfl, rfl, rfl, rfl⟩

/-- Witness for C2: the same frame as C1's with a wrong checksum byte. -/
theorem C2_invalid_frame_dropped_witness :
    ((veInit.mChecksum + (frameBytes [([65], [49])] 54).sum) % 256 ≠ 0 ∧
        WellFormedFields [([65], [49])]) ∧
      (run veInit (frameBytes [([65], [49])] 54)).veData = veInit.veData ∧
        (run veInit (frameBytes [([65], [49])] 54)).veEnd = veInit.veEnd ∧
        (run veInit (frameBytes [([65], [49])] 54)).newDataAvailable
          = veInit.newDataAvailable ∧
        (run veInit (frameBytes [([65], [49])] 54)).tempData = [] ∧
        (run veInit (frameBytes [([65], [49])] 54)).mState = MState.idle :=
  ⟨⟨by decide, by unfold WellFormedFields WellFormedField goodNameByte goodValueByte toUpperByte checksumTagName; decide⟩,
    C2_invalid_frame_dropped [([65], [49])] 54 veInit (by decide) (by decide) (by decide)
      (by decide) (by unfold WellFormedFields WellFormedField goodNameByte goodValueByte toUpperByte checksumTagName; decide) (by decide)⟩

/-! ## The hex checksum formula -/

theorem ascii2hex_digit {c : Nat} (h : IsHexDigit c) :
    ascii2hex (charVal c) = hexDigitVal c := by
  rcases h with ⟨h1, h2⟩ | ⟨h1, h2⟩
  · unfold ascii2hex charVal hexDigitVal
    rw [if_pos (by omega), if_neg (by omega : ¬ (65 : Int) ≤ c), if_pos (by omega)]
    omega
  · unfold ascii2hex charVal hexDigitVal
    rw [if_pos (by omega), if_pos (by omega : (65 : Int) ≤ c), if_neg (by omega)]
    omega

theorem foldl_sub (L : List Nat) (f : Nat → Int) (cs : Int) :
    L.foldl (fun a i => a - f i) cs = cs - (L.map f).sum := by
  induction L generalizing cs with
  | nil => simp
  | cons a l ih =>
      rw [List.foldl_cons, ih, List.map_cons, List.sum_cons]
      ring

theorem hexPositions_even (m : Nat) :
    hexPositions (2 * m + 2) = (List.range m).map (fun k => 2 * k + 2) := by
  induction m with
  | zero => decide
  | succ m ih =>
      have h1 : 2 * (m + 1) + 2 = (2 * m + 3) + 1 := by omega
      have h2 : 2 * m + 3 = (2 * m + 2) + 1 := by omega
      unfold hexPositions
      rw [h1, List.range_succ, h2, List.range_succ, List.filter_append, List.filter_append]
      rw [show List.filter (fun i => decide (2 ≤ i ∧ i % 2 = 0)) [2 * m + 2]
          = [2 * m + 2] from by
        rw [List.filter_cons, if_pos (by simp only [decide_eq_true_eq]; omega)]
        rfl]
      rw [show List.filter (fun i => decide (2 ≤ i ∧ i % 2 = 0)) [(2 * m + 2) + 1]
          = [] from by
        rw [List.filter_cons, if_neg]
        · rfl
        · simp only [decide_eq_true_eq, not_and]
          intro _
          omega]
      rw [show List.filter (fun i => decide (2 ≤ i ∧ i % 2 = 0)) (List.range (2 * m + 2))
          = hexPositions (2 * m + 2) from rfl, ih]
      rw [List.range_succ, List.map_append]
      simp

theorem hexIsValid_eq_spec (buf : List Nat) (size : Nat)
    (h2 : 2 ≤ size) (hev : size % 2 = 0)
    (hdig : ∀ i, i < size → 1 ≤ i → IsHexDigit (buf.getD i 0)) :
    hexIsValid buf size = specHexValid buf size := by
  obtain ⟨m, rfl⟩ : ∃ m, size = 2 * m + 2 := ⟨size / 2 - 1, by omega⟩
  unfold hexIsValid specHexValid
  rw [foldl_sub, hexPositions_even, List.map_map]
  rw [show (2 * m + 2) / 2 - 1 = m from by omega]
  rw [ascii2hex_digit (hdig 1 (by omega) (by omega))]
  have hmap : (List.range m).map (hex2byte buf ∘ fun k => 2 * k + 2)
      = (List.range m).map (fun k =>
          16 * hexDigitVal (buf.getD (2 * k + 2) 0) + hexDigitVal (buf.getD (2 * k + 3) 0)) := by
    apply List.map_congr_left
    intro k hk
    have hk' := List.mem_range.mp hk
    show hex2byte buf (2 * k + 2) = _
    unfold hex2byte
    rw [show 2 * k + 2 + 1 = 2 * k + 3 from by omega]
    rw [ascii2hex_digit (hdig (2 * k + 2) (by omega) (by omega)),
      ascii2hex_digit (hdig (2 * k + 3) (by omega) (by omega))]
    ring
  rw [hmap]

/-- C5: when '\n' arrives in RecordHex over an ASCII-hex frame (even length
at least 2, bytes 1..veHEnd hex digits), the frame is valid exactly when
0x55 minus the hex value of b[1] minus the value of each subsequent hex pair
(b[2i], b[2i+1]) vanishes mod 256; if valid, every registered callback is
invoked (an event is emitted) exactly once, in registration order, with the
buffer contents, the length veHEnd and its own context; if invalid, no
callback is invoked; either way the remembered state is restored. -/
theorem C5_hex_checksum_callbacks (st : Machine) (hs : st.mState = MState.recordHex)
    (h2 : 2 ≤ st.veHEnd) (hev : st.veHEnd % 2 = 0)
    (hdig : ∀ i, i < st.veHEnd → 1 ≤ i → IsHexDigit (st.veHexBuffer.getD i 0)) :
    (hexIsValid st.veHexBuffer st.veHEnd = specHexValid st.veHexBuffer st.veHEnd) ∧
      ((rxData st 10).events = st.events ++
        (if specHexValid st.veHexBuffer st.veHEnd then
          st.veHexCBList.map (fun cb => ⟨cb.fn, cb.data, st.veHexBuffer, st.veHEnd⟩)
        else [])) ∧
      (rxData st 10).mState = st.vePushedState := by
  have heq := hexIsValid_eq_spec st.veHexBuffer st.veHEnd h2 hev hdig
  refine ⟨heq, ?_, ?_⟩
  · rw [rxData_hex hs (by decide)]
    unfold hexRxEvent
    rw [if_pos rfl, ← heq]
    by_cases hv : hexIsValid st.veHexBuffer st.veHEnd
    · rw [if_pos hv, if_pos hv]
    · rw [if_neg hv, if_neg hv, List.append_nil]
  · rw [rxData_hex hs (by decide)]
    exact hexRxEvent_nl_mState st

/-- Witness for C5: a registered callback fires once for the valid hex frame
":550". -/
theorem C5_hex_checksum_callbacks_witness :
    ((run (addHexCallback veInit 7 3) [58, 53, 53, 48]).mState = MState.recordHex ∧
        2 ≤ (run (addHexCallback veInit 7 3) [58, 53, 53, 48]).veHEnd ∧
        (run (addHexCallback veInit 7 3) [58, 53, 53, 48]).veHEnd % 2 = 0) ∧
      ((rxData (run (addHexCallback veInit 7 3) [58, 53, 53, 48]) 10).events =
        (run (addHexCallback veInit 7 3) [58, 53, 53, 48]).events ++
          (if specHexValid (run (addHexCallback veInit 7 3) [58, 53, 53, 48]).veHexBuffer
              (run (addHexCallback veInit 7 3) [58, 53, 53, 48]).veHEnd then
            (run (addHexCallback veInit 7 3) [58, 53, 53, 48]).veHexCBList.map
              (fun cb => ⟨cb.fn, cb.data,
                (run (addHexCallback veInit 7 3) [58, 53, 53, 48]).veHexBuffer,
                (run (addHexCallback veInit 7 3) [58, 53, 53, 48]).veHEnd⟩)
          else [])) :=
  ⟨⟨by decide, by decide, by decide⟩,
    (C5_hex_checksum_callbacks (run (addHexCallback veInit 7 3) [58, 53, 53, 48])
      (by decide) (by decide) (by decide)
      (by
        intro i hi h1
        have hi4 : i < 4 := hi
        unfold IsHexDigit
        interval_cases i <;> decide)).2.1⟩
